import Mathlib

/-!
Shallow embedding of the `datasource-cache` repository (Go): a multi-tier
read-through/write-back cache.  The definitions below translate, file by
file, the source's data model and operations:

* `types.go`   — `Key`, the `Entity` capability (model version), the
  `Provider` interface (modelled abstractly as a `Tier` of response
  functions), and `Builder`.
* `provider_redis.go` — the distributed-store tier: `chunkBy`, chunked
  `MGet` with per-chunk classification (`classifyPairs`, `rcChunk`,
  `mergeChunks`, `rcMGet`).
* `src/unnamed/part_000` — an older variant of the redis provider whose
  `MGet` chunks the cache-key strings and indexes the *full* input key
  list inside each chunk (`dcChunk`, `dcMGet`).
* `cache.go`   — the tier orchestrator: single-key `Get` (`getPhase1`,
  `cacheGet`), batch `MGet` (`mgetPhase1`, `cacheMGet`) and `MSet`
  (`msetLoop`, `cacheMSet`).

Machine-level aspects are modelled as follows: Go pointers that may be
nil become `Option`; Go errors become `Except`/`Option`/`Bool` results;
msgpack bytes in the store become a `Cell` that is either absent,
undecodable, or a decoded entity; Go maps become association lists with
overwrite-on-insert (`setKV`); the side effects of a call (which tier
operations it performs, with which arguments and in which cancellation
scope) are returned as an explicit `Event` trace.
-/

namespace DatasourceCache

/-- A cacheable entity.  The Go `Entity` interface only exposes
`GetCacheModelVersion() uint16`; we model an entity as its model version
together with an abstract payload. -/
structure Ent where
  modelVersion : Nat
  payload : Nat
deriving DecidableEq, Repr

/-- `Key[V]` from `types.go` with the opaque `OriginalValue` fixed to `Nat`:
`key` is the storage-tier lookup string (`Key.Key` in Go). -/
structure Key where
  key : String
  originalValue : Nat
deriving DecidableEq, Repr

/-- What the distributed store holds under one cache-key string: nothing,
bytes that fail msgpack decoding, or bytes decoding to an entity. -/
inductive Cell where
  | absent
  | corrupt
  | val (e : Ent)
deriving DecidableEq, Repr

/-- The distributed store as seen by one `MGet` call: the per-key contents
and which batch (chunk) network calls fail at the transport level. -/
structure RedisStore where
  lookup : String → Cell
  chunkFails : List String → Bool

/-- `RedisCache` from `provider_redis.go`: only the `chunkSize` field is
relevant to the control flow (the client is the `RedisStore` argument). -/
structure RedisCache where
  chunkSize : Nat
deriving DecidableEq, Repr

/-- `NewRedisCache` sets `chunkSize: 100`. -/
def RedisCache.new : RedisCache := ⟨100⟩

/-- The loop body of `chunkBy`, structurally recursive on a fuel that
bounds the number of iterations (each iteration drops at least one item,
so `items.length` fuel is always enough; see `chunkBy_eq`). -/
def chunkByAux (chunkSize : Nat) : Nat → List α → List (List α)
  | 0, items => [items]
  | fuel + 1, items =>
    if chunkSize < items.length ∧ 0 < chunkSize then
      items.take chunkSize :: chunkByAux chunkSize fuel (items.drop chunkSize)
    else
      [items]

/-- `chunkBy` from `provider_redis.go`: repeatedly split off a full prefix
of `chunkSize` while more than `chunkSize` items remain; the (possibly
short or empty) remainder becomes the final chunk.  The Go loop does not
terminate for `chunkSize = 0` and a non-empty list, a case its callers
never produce (`chunkSize` is always 100): there we return the single
whole chunk. -/
def chunkBy (chunkSize : Nat) (items : List α) : List (List α) :=
  chunkByAux chunkSize items.length items

/-- The per-slot classification loop shared by both redis `MGet` variants.
Input: the list of (key used for recording, stored cell) pairs in slot
order.  A nil slot or an undecodable slot records the key as missing; a
decoded entity whose model version differs from the required one is
skipped entirely (neither found nor missing); a matching entity is
recorded as found. -/
def classifyPairs (required : Nat) : List (Key × Cell) → List (Key × Ent) × List Key
  | [] => ([], [])
  | (k, c) :: rest =>
    let r := classifyPairs required rest
    match c with
    | .absent => (r.1, k :: r.2)
    | .corrupt => (r.1, k :: r.2)
    | .val e => if e.modelVersion = required then ((k, e) :: r.1, r.2) else r

/-- One chunk of the current redis provider's `MGet`
(`provider_redis.go`): the chunk is a list of keys; the batch call sends
`chCopy`'s cache-key strings and each returned slot `i` is classified
against `chCopy[i]`.  `none` models a chunk whose batch call returned a
transport error. -/
def rcChunk (st : RedisStore) (required : Nat) (ch : List Key) :
    Option (List (Key × Ent) × List Key) :=
  if st.chunkFails (ch.map Key.key) then none
  else some (classifyPairs required (ch.map fun k => (k, st.lookup k.key)))

/-- One chunk of the older redis provider's `MGet`
(`src/unnamed/part_000`): the chunk is a list of cache-key strings, but
slot `i` is classified against `keys[i]` — the *full* input key list of
the surrounding `MGet`, not the chunk's own keys.  Where the Go code
would panic (`i` beyond `keys`, unreachable since every chunk is at most
as long as `keys`) the `zip` truncates instead. -/
def dcChunk (st : RedisStore) (required : Nat) (keys : List Key) (ch : List String) :
    Option (List (Key × Ent) × List Key) :=
  if st.chunkFails ch then none
  else some (classifyPairs required (keys.zip (ch.map st.lookup)))

/-- The fan-in collector of both `MGet` variants: chunk responses are read
in chunk order; an errored chunk is logged and contributes nothing; the
others have their found entries and missing keys appended. -/
def mergeChunks : List (Option (List (Key × Ent) × List Key)) → List (Key × Ent) × List Key
  | [] => ([], [])
  | none :: rest => mergeChunks rest
  | some p :: rest =>
    let r := mergeChunks rest
    (p.1 ++ r.1, p.2 ++ r.2)

/-- `RedisCache.MGet` from `provider_redis.go`: chunk the key list, run
each chunk, merge.  The second component is the function's returned
error, which the source fixes to `nil` (`return results, missing, nil`). -/
def rcMGet (r : RedisCache) (st : RedisStore) (keys : List Key) (required : Nat) :
    (List (Key × Ent) × List Key) × Option Unit :=
  (mergeChunks ((chunkBy r.chunkSize keys).map (rcChunk st required)), none)

/-- `RedisCache.MGet` from `src/unnamed/part_000`: first project the keys
to their cache-key strings, chunk the strings, and classify each chunk's
slots against the full `keys` list. -/
def dcMGet (r : RedisCache) (st : RedisStore) (keys : List Key) (required : Nat) :
    (List (Key × Ent) × List Key) × Option Unit :=
  (mergeChunks ((chunkBy r.chunkSize (keys.map Key.key)).map (dcChunk st required keys)), none)

/-! ### The tier orchestrator (`cache.go`) -/

/-- The cancellation scope an operation runs under: the caller's context,
or the detached `context.Background()` used by the asynchronous backfill. -/
inductive Ctx where
  | caller
  | background
deriving DecidableEq, Repr

/-- One observable tier or origin operation performed during an
orchestrator call.  Tiers are identified by their position in the
configured chain; keys by their cache-key string; records carry the
(possibly nil) value pointer written per cache-key. -/
inductive Event where
  | getCall (tier : Nat) (key : String)
  | mgetCall (tier : Nat) (keys : List String)
  | msetCall (tier : Nat) (records : List (String × Option Ent)) (ttl : Nat) (ctx : Ctx)
  | originCall (keys : List String)
deriving DecidableEq, Repr

/-- One configured tier: the `Provider` interface of `types.go`, modelled
as response functions.  `getR` returns a transport/decode error, a nil
pointer (absent) or a value; `mgetR` returns an error or the pair
`(found, missing)`; `msetOk` tells whether a write of the given records
with the given TTL succeeds. -/
structure Tier where
  getR : Key → Nat → Except Unit (Option Ent)
  mgetR : List Key → Nat → Except Unit (List (Key × Option Ent) × List Key)
  msetOk : List (String × Option Ent) → Nat → Bool

/-- `Builder` from `types.go`: the configured tier chain, the default TTL
(applied on orchestrator writes) and the required model version. -/
structure Builder where
  tiers : List Tier
  ttl : Nat
  modelVersion : Nat

/-- The two error returns of the orchestrator's `Get`/`MGet`:
`errors.New("get single from source is not defined")` and
`errors.Wrap(err, "can not get from source")`. -/
inductive CacheErr where
  | sourceNotDefined
  | sourceFailed
deriving DecidableEq, Repr

/-- Go-map insertion into an association list: overwrite the existing
binding of the key in place, else append. -/
def setKV (k : Key) (v : Option Ent) :
    List (Key × Option Ent) → List (Key × Option Ent)
  | [] => [(k, v)]
  | p :: rest => if p.1 = k then (k, v) :: rest else p :: setKV k v rest

/-- Merge the entries of `adds` into the Go map `base`
(`for k, v := range adds { base[k] = v }`). -/
def mergeKV (base adds : List (Key × Option Ent)) : List (Key × Option Ent) :=
  adds.foldl (fun acc p => setKV p.1 p.2 acc) base

/-- Go-map lookup (`v, ok := m[k]`) on an association list. -/
def lookupKV (m : List (Key × Option Ent)) (k : Key) : Option (Option Ent) :=
  (m.find? fun p => p.1 = k).map Prod.snd

/-- String-keyed Go-map insertion, used for the backfill's `toSet` map. -/
def setS (s : String) (v : Option Ent) :
    List (String × Option Ent) → List (String × Option Ent)
  | [] => [(s, v)]
  | p :: rest => if p.1 = s then (s, v) :: rest else p :: setS s v rest

/-- The tier loop of `Cache.Get` (`cache.go`): visit tiers in order from
index `i`; a tier error is logged and skipped (not recorded as a miss); a
nil result records the tier in `missingIn`; the first non-nil value ends
the loop.  Returns `(missingIn, finalValue, events)`. -/
def getPhase1 (ver : Nat) (key : Key) :
    Nat → List Tier → List (Nat × Tier) × Option Ent × List Event
  | _, [] => ([], none, [])
  | i, t :: rest =>
    match t.getR key ver with
    | .error _ =>
      let r := getPhase1 ver key (i + 1) rest
      (r.1, r.2.1, .getCall i key.key :: r.2.2)
    | .ok (some v) => ([], some v, [.getCall i key.key])
    | .ok none =>
      let r := getPhase1 ver key (i + 1) rest
      ((i, t) :: r.1, r.2.1, .getCall i key.key :: r.2.2)

/-- The synchronous write-back of `Cache.Get`: one `MSet` per missed tier
with the single-entry map `{key.Key: finalValue}` and the default TTL,
in the caller's context; its errors are logged only. -/
def writebackEvents (b : Builder) (key : Key) (v : Option Ent)
    (missingIn : List (Nat × Tier)) : List Event :=
  missingIn.map fun p => .msetCall p.1 [(key.key, v)] b.ttl .caller

/-- `Cache.Get` from `cache.go`.  `fn` is the caller-supplied
`GetSingleFromSourceFn` (`none` models the Go nil function).  Returns the
call's result together with the trace of tier/origin operations. -/
def cacheGet (b : Builder) (key : Key)
    (fn : Option (Key → Except Unit (Option Ent))) :
    Except CacheErr (Option Ent) × List Event :=
  let r := getPhase1 b.modelVersion key 0 b.tiers
  match r.2.1 with
  | some v => (.ok (some v), r.2.2 ++ writebackEvents b key (some v) r.1)
  | none =>
    match fn with
    | none => (.error .sourceNotDefined, r.2.2)
    | some f =>
      match f key with
      | .error _ => (.error .sourceFailed, r.2.2 ++ [.originCall [key.key]])
      | .ok v => (.ok v, r.2.2 ++ [.originCall [key.key]] ++ writebackEvents b key v r.1)

/-- The tier loop of `Cache.MGet` (`cache.go`): visit tiers in order from
index `i` with the still-unresolved keys `toQuery` and the accumulated
result map `acc`.  A tier error is logged and the next tier is asked the
same `toQuery`; otherwise the tier's found entries are merged into `acc`,
a non-empty missing list is recorded in `missingIn` and becomes the next
`toQuery`, and an empty missing list ends the loop.  Returns
`(missingIn, finalResults, final toQuery, events)`. -/
def mgetPhase1 (ver : Nat) :
    Nat → List Tier → List Key → List (Key × Option Ent) →
    List (Nat × Tier × List Key) × List (Key × Option Ent) × List Key × List Event
  | _, [], toQuery, acc => ([], acc, toQuery, [])
  | i, t :: rest, toQuery, acc =>
    match t.mgetR toQuery ver with
    | .error _ =>
      let r := mgetPhase1 ver (i + 1) rest toQuery acc
      (r.1, r.2.1, r.2.2.1, .mgetCall i (toQuery.map Key.key) :: r.2.2.2)
    | .ok (found, missing) =>
      let acc2 := mergeKV acc found
      if missing.isEmpty then ([], acc2, [], [.mgetCall i (toQuery.map Key.key)])
      else
        let r := mgetPhase1 ver (i + 1) rest missing acc2
        ((i, t, missing) :: r.1, r.2.1, r.2.2.1, .mgetCall i (toQuery.map Key.key) :: r.2.2.2)

/-- The backfill's per-tier `toSet` map: the subset of that tier's missed
keys that exist in the origin's result map, keyed by cache-key string. -/
def computeToSet (valuesFromSource : List (Key × Option Ent)) (missingKeys : List Key) :
    List (String × Option Ent) :=
  missingKeys.foldl
    (fun acc k =>
      match lookupKV valuesFromSource k with
      | some v => setS k.key v acc
      | none => acc)
    []

/-- `Cache.MGet` from `cache.go`.  `fn` is the caller-supplied
`GetFromSourceFn`; its Go result map is modelled as an association list
(first-match lookup).  The asynchronous backfill goroutine's `MSet`
calls appear in the trace tagged with the detached `Ctx.background`
scope. -/
def cacheMGet (b : Builder) (keys : List Key)
    (fn : Option (List Key → Except Unit (List (Key × Option Ent)))) :
    Except CacheErr (List (Key × Option Ent)) × List Event :=
  let r := mgetPhase1 b.modelVersion 0 b.tiers keys []
  let missingIn := r.1
  let toQuery := r.2.2.1
  let evs := r.2.2.2
  if toQuery.isEmpty then (.ok r.2.1, evs)
  else
    match fn with
    | none => (.error .sourceNotDefined, evs)
    | some f =>
      match f toQuery with
      | .error _ => (.error .sourceFailed, evs ++ [.originCall (toQuery.map Key.key)])
      | .ok newValues =>
        let backfill :=
          if ¬ missingIn.isEmpty ∧ ¬ newValues.isEmpty then
            missingIn.map fun p =>
              Event.msetCall p.1 (computeToSet newValues p.2.2) b.ttl .background
          else []
        (.ok (mergeKV r.2.1 newValues),
          evs ++ [.originCall (toQuery.map Key.key)] ++ backfill)

/-- The tier loop of `Cache.MSet` (`cache.go`): write the records to every
tier in order with the default TTL; collect the (indices of the) failing
tiers in order into the multi-error. -/
def msetLoop (ttl : Nat) (records : List (String × Option Ent)) :
    Nat → List Tier → List Nat × List Event
  | _, [] => ([], [])
  | i, t :: rest =>
    let r := msetLoop ttl records (i + 1) rest
    (if t.msetOk records ttl then r.1 else i :: r.1,
      .msetCall i records ttl .caller :: r.2)

/-- `Cache.MSet` from `cache.go`: `none` is the nil `finalErr` when every
tier succeeded; otherwise the aggregated multi-error, as the ordered list
of failing tier indices. -/
def cacheMSet (b : Builder) (records : List (String × Option Ent)) :
    Option (List Nat) × List Event :=
  let r := msetLoop b.ttl records 0 b.tiers
  (if r.1.isEmpty then none else some r.1, r.2)

/-! ### Derived views of a call, and concrete fixtures -/

/-- The asynchronous backfill writes of a trace: the `MSet` calls running
in the detached background scope. -/
def backgroundWrites (evs : List Event) : List Event :=
  evs.filter fun e =>
    match e with
    | .msetCall _ _ _ .background => true
    | _ => false

/-- The per-tier missing records collected by `Cache.MGet`'s tier loop on
the given call. -/
def mgetMissingIn (b : Builder) (keys : List Key) : List (Nat × Tier × List Key) :=
  (mgetPhase1 b.modelVersion 0 b.tiers keys []).1

/-- The keys still unresolved after `Cache.MGet`'s tier loop — exactly the
keys the origin function is invoked with (when non-empty). -/
def mgetToQuery (b : Builder) (keys : List Key) : List Key :=
  (mgetPhase1 b.modelVersion 0 b.tiers keys []).2.2.1

/-- Two orchestrator configurations whose tiers answer reads (Get/MGet)
identically and agree on the required model version; they may differ
arbitrarily in write (MSet) outcomes. -/
def sameReads (b b' : Builder) : Prop :=
  b.modelVersion = b'.modelVersion ∧
  List.Forall₂ (fun t u => t.getR = u.getR ∧ t.mgetR = u.mgetR) b.tiers b'.tiers

/-- Fixture: an entity of model version 1. -/
def fixEnt : Ent := ⟨1, 10⟩

/-- Fixture: a second entity of model version 1, as the origin's answer. -/
def fixEnt2 : Ent := ⟨1, 99⟩

/-- Fixture keys. -/
def fixKey : Key := ⟨"k1", 1⟩

def fixKey2 : Key := ⟨"k2", 2⟩

/-- Fixture: a tier that holds nothing and always succeeds. -/
def fixTierAbsent : Tier :=
  ⟨fun _ _ => .ok none, fun ks _ => .ok ([], ks), fun _ _ => true⟩

/-- Fixture: a tier that answers every read with `fixEnt`. -/
def fixTierHit : Tier :=
  ⟨fun _ _ => .ok (some fixEnt),
   fun ks _ => .ok (ks.map fun k => (k, some fixEnt), []),
   fun _ _ => true⟩

/-- Fixture: a tier that resolves only the key `"k1"` (with `fixEnt`) and
reports every other key missing. -/
def fixTierPart : Tier :=
  ⟨fun k _ => .ok (if k.key == "k1" then some fixEnt else none),
   fun ks _ => .ok ((ks.filter fun k => k.key == "k1").map fun k => (k, some fixEnt),
                    ks.filter fun k => k.key != "k1"),
   fun _ _ => true⟩

/-- Fixture: a tier that holds nothing and whose writes always fail. -/
def fixTierBadWrite : Tier :=
  ⟨fun _ _ => .ok none, fun ks _ => .ok ([], ks), fun _ _ => false⟩

/-- Fixture: an origin function answering every requested key with
`fixEnt2`. -/
def fixOriginOk : List Key → Except Unit (List (Key × Option Ent)) :=
  fun ks => .ok (ks.map fun k => (k, some fixEnt2))

/-- Fixture: an origin function that always fails. -/
def fixOriginErr : List Key → Except Unit (List (Key × Option Ent)) :=
  fun _ => .error ()

/-- Fixture: a single-key origin function returning an explicit nil value. -/
def fixOriginNil : Key → Except Unit (Option Ent) :=
  fun _ => .ok none

/-- Fixture builders (default TTL 300, required model version 1). -/
def fixB1 : Builder := ⟨[fixTierAbsent], 300, 1⟩

def fixB2 : Builder := ⟨[fixTierHit, fixTierAbsent], 300, 1⟩

def fixB3 : Builder := ⟨[fixTierPart, fixTierAbsent], 300, 1⟩

def fixB4 : Builder := ⟨[fixTierAbsent, fixTierBadWrite], 300, 1⟩

def fixB5 : Builder := ⟨[fixTierAbsent, fixTierHit], 300, 1⟩

/-- Fixture: 101 pairwise distinct keys (cache-key `n` is the string of
`n` letters `a`), one more than the default chunk size. -/
def fixKeys101 : List Key :=
  (List.range 101).map fun i => ⟨String.mk (List.replicate i 'a'), i⟩

/-- Fixture: a distributed store holding nothing, with no transport
failures. -/
def fixStoreNone : RedisStore := ⟨fun _ => .absent, fun _ => false⟩

/-- Fixture: a distributed store holding, under every cache-key string, a
version-1 entity whose payload is the key's length; no transport
failures. -/
def fixStoreAll : RedisStore := ⟨fun s => .val ⟨1, s.length⟩, fun _ => false⟩

/-- Fixture: 250 pairwise distinct keys for the chunking scenario. -/
def fixKeys250 : List Key :=
  (List.range 250).map fun i => ⟨String.mk (List.replicate i 'a'), i⟩

/-! ### General lemmas about the chunking and classification helpers -/

theorem chunkByAux_nil (cs f : Nat) : chunkByAux (α := α) cs f [] = [[]] := by
  cases f <;> simp [chunkByAux]

theorem chunkByAux_fuel (cs : Nat) :
    ∀ f (items : List α), items.length ≤ f →
      chunkByAux cs f items = chunkByAux cs items.length items := by
  intro f
  induction f using Nat.strong_induction_on with
  | _ f ih =>
    intro items hle
    match f with
    | 0 =>
      have : items = [] := List.length_eq_zero.mp (Nat.le_zero.mp hle)
      subst this; rfl
    | g + 1 =>
      by_cases hc : cs < items.length ∧ 0 < cs
      · obtain ⟨n, hn⟩ : ∃ n, items.length = n + 1 :=
          ⟨items.length - 1, by omega⟩
        have hdrop : (items.drop cs).length = items.length - cs := List.length_drop cs items
        rw [chunkByAux, if_pos hc, hn, chunkByAux, if_pos (hn ▸ hc)]
        have h1 : chunkByAux cs g (items.drop cs) =
            chunkByAux cs (items.drop cs).length (items.drop cs) :=
          ih g (by omega) _ (by omega)
        have h2 : chunkByAux cs n (items.drop cs) =
            chunkByAux cs (items.drop cs).length (items.drop cs) :=
          ih n (by omega) _ (by omega)
        rw [h1, h2]
      · obtain ⟨n, hn⟩ | hz : (∃ n, items.length = n + 1) ∨ items.length = 0 := by
          rcases Nat.eq_zero_or_pos items.length with h | h
          · exact Or.inr h
          · exact Or.inl ⟨items.length - 1, by omega⟩
        · rw [chunkByAux, if_neg hc, hn, chunkByAux, if_neg (hn ▸ hc)]
        · have : items = [] := List.length_eq_zero.mp hz
          subst this
          rw [chunkByAux_nil, chunkByAux_nil]

/-- `chunkBy` satisfies the Go loop's recurrence: split off a full chunk
while more than `chunkSize` items remain. -/
theorem chunkBy_eq (cs : Nat) (items : List α) :
    chunkBy cs items =
      if cs < items.length ∧ 0 < cs then
        items.take cs :: chunkBy cs (items.drop cs)
      else [items] := by
  by_cases hc : cs < items.length ∧ 0 < cs
  · obtain ⟨n, hn⟩ : ∃ n, items.length = n + 1 := ⟨items.length - 1, by omega⟩
    rw [if_pos hc]
    unfold chunkBy
    rw [hn, chunkByAux, if_pos (hn ▸ hc)]
    have hdrop : (items.drop cs).length = items.length - cs := List.length_drop cs items
    rw [chunkByAux_fuel cs n (items.drop cs) (by omega)]
  · rw [if_neg hc]
    unfold chunkBy
    match h : items.length with
    | 0 =>
      have : items = [] := List.length_eq_zero.mp h
      subst this; rfl
    | n + 1 => rw [chunkByAux, if_neg (h ▸ hc)]

/-- When the whole list fits in one chunk, `chunkBy` returns it whole. -/
theorem chunkBy_of_le (cs : Nat) (items : List α) (h : items.length ≤ cs) :
    chunkBy cs items = [items] := by
  rw [chunkBy_eq, if_neg]
  rintro ⟨h1, _⟩; omega

/-- The chunks concatenate back to the input, in order: no key is
duplicated or dropped by chunking. -/
theorem chunkBy_flatten (cs : Nat) (items : List α) :
    (chunkBy cs items).flatten = items := by
  suffices h : ∀ f (l : List α), l.length ≤ f → (chunkByAux cs f l).flatten = l by
    exact h items.length items le_rfl
  intro f
  induction f with
  | zero => intro l _; simp [chunkByAux]
  | succ g ih =>
    intro l hle
    by_cases hc : cs < l.length ∧ 0 < cs
    · rw [chunkByAux, if_pos hc]
      have := List.length_drop cs l
      simp only [List.flatten_cons, ih (l.drop cs) (by omega)]
      exact List.take_append_drop cs l
    · rw [chunkByAux, if_neg hc]; simp

/-- Every chunk except possibly the last is exactly full. -/
theorem chunkBy_full (cs : Nat) (items : List α) :
    ∀ i, i + 1 < (chunkBy cs items).length → ((chunkBy cs items).getD i []).length = cs := by
  suffices h : ∀ f (l : List α), l.length ≤ f →
      ∀ i, i + 1 < (chunkByAux cs f l).length → ((chunkByAux cs f l).getD i []).length = cs by
    exact h items.length items le_rfl
  intro f
  induction f with
  | zero => intro l _ i hi; simp [chunkByAux] at hi
  | succ g ih =>
    intro l hle i hi
    by_cases hc : cs < l.length ∧ 0 < cs
    · rw [chunkByAux, if_pos hc] at hi ⊢
      match i with
      | 0 =>
        simp only [List.getD, List.get?_cons_zero]
        simp [List.length_take]
        omega
      | j + 1 =>
        have := List.length_drop cs l
        simp only [List.length_cons] at hi
        simpa using ih (l.drop cs) (by omega) j (by omega)
    · rw [chunkByAux, if_neg hc] at hi
      simp at hi

/-- A pair lands in a chunk's found list exactly when its slot decoded to
that entity and the model version matches. -/
theorem mem_found_classifyPairs (ver : Nat) (ps : List (Key × Cell)) (k : Key) (e : Ent) :
    (k, e) ∈ (classifyPairs ver ps).1 ↔ (k, Cell.val e) ∈ ps ∧ e.modelVersion = ver := by
  induction ps with
  | nil => simp [classifyPairs]
  | cons p rest ih =>
    obtain ⟨k', c⟩ := p
    match c with
    | .absent => simp [classifyPairs, ih]
    | .corrupt => simp [classifyPairs, ih]
    | .val e' =>
      by_cases hv : e'.modelVersion = ver
      · simp only [classifyPairs, if_pos hv, List.mem_cons, Prod.mk.injEq, ih]
        constructor
        · rintro (⟨rfl, rfl⟩ | ⟨h1, h2⟩)
          · exact ⟨Or.inl ⟨rfl, rfl⟩, hv⟩
          · exact ⟨Or.inr h1, h2⟩
        · rintro ⟨⟨rfl, h⟩ | h1, h2⟩
          · exact Or.inl ⟨rfl, Cell.val.inj h⟩
          · exact Or.inr ⟨h1, h2⟩
      · simp only [classifyPairs, if_neg hv, ih, List.mem_cons, Prod.mk.injEq]
        constructor
        · rintro ⟨h1, h2⟩; exact ⟨Or.inr h1, h2⟩
        · rintro ⟨⟨rfl, h⟩ | h1, h2⟩
          · exact absurd (Cell.val.inj h ▸ h2) hv
          · exact ⟨h1, h2⟩

/-- A key lands in a chunk's missing list exactly when its slot was nil or
failed to decode. -/
theorem mem_missing_classifyPairs (ver : Nat) (ps : List (Key × Cell)) (k : Key) :
    k ∈ (classifyPairs ver ps).2 ↔ (k, Cell.absent) ∈ ps ∨ (k, Cell.corrupt) ∈ ps := by
  induction ps with
  | nil => simp [classifyPairs]
  | cons p rest ih =>
    obtain ⟨k', c⟩ := p
    match c with
    | .absent => simp [classifyPairs, ih]; tauto
    | .corrupt => simp [classifyPairs, ih]; tauto
    | .val e' =>
      by_cases hv : e'.modelVersion = ver <;>
        simp [classifyPairs, hv, ih]

/-- When every slot decodes to a version-matched entity, a chunk's found
list covers its keys exactly, in order, and nothing is missing. -/
theorem classifyPairs_all_val (ver : Nat) (ps : List (Key × Cell))
    (h : ∀ p ∈ ps, ∃ e, p.2 = Cell.val e ∧ e.modelVersion = ver) :
    (classifyPairs ver ps).1.map Prod.fst = ps.map Prod.fst ∧
      (classifyPairs ver ps).2 = [] := by
  induction ps with
  | nil => simp [classifyPairs]
  | cons p rest ih =>
    obtain ⟨k', c⟩ := p
    obtain ⟨e, he, hv⟩ := h (k', c) (List.mem_cons_self _ _)
    subst he
    have ihr := ih fun q hq => h q (List.mem_cons_of_mem _ hq)
    simp [classifyPairs, hv, ihr.1, ihr.2]

/-- Membership of a pair built from a chunk's own keys. -/
theorem mem_selfPairs (st : RedisStore) (ch : List Key) (k : Key) (c : Cell)
    (h : (k, c) ∈ ch.map fun k' => (k', st.lookup k'.key)) :
    c = st.lookup k.key ∧ k ∈ ch := by
  obtain ⟨k', hk', heq⟩ := List.mem_map.mp h
  obtain ⟨rfl, rfl⟩ : k' = k ∧ st.lookup k'.key = c := by
    exact ⟨congrArg Prod.fst heq, congrArg Prod.snd heq⟩
  exact ⟨rfl, hk'⟩

/-- Found entries of the fan-in collector come from a successful chunk. -/
theorem mem_found_mergeChunks (rs : List (Option (List (Key × Ent) × List Key)))
    (x : Key × Ent) :
    x ∈ (mergeChunks rs).1 ↔ ∃ p, some p ∈ rs ∧ x ∈ p.1 := by
  induction rs with
  | nil => simp [mergeChunks]
  | cons r rest ih =>
    match r with
    | none => simp [mergeChunks, ih]
    | some p => simp [mergeChunks, ih]

/-- Missing keys of the fan-in collector come from a successful chunk. -/
theorem mem_missing_mergeChunks (rs : List (Option (List (Key × Ent) × List Key)))
    (k : Key) :
    k ∈ (mergeChunks rs).2 ↔ ∃ p, some p ∈ rs ∧ k ∈ p.2 := by
  induction rs with
  | nil => simp [mergeChunks]
  | cons r rest ih =>
    match r with
    | none => simp [mergeChunks, ih]
    | some p => simp [mergeChunks, ih]

/-- A found entry of the current redis `MGet` comes from a chunk whose
batch call succeeded, holds the key, and whose stored value decodes to
the entity with the required model version. -/
theorem rc_found_char (r : RedisCache) (st : RedisStore) (keys : List Key) (ver : Nat)
    (k : Key) (e : Ent) (h : (k, e) ∈ (rcMGet r st keys ver).1.1) :
    ∃ ch ∈ chunkBy r.chunkSize keys,
      st.chunkFails (ch.map Key.key) = false ∧ k ∈ ch ∧
        st.lookup k.key = Cell.val e ∧ e.modelVersion = ver := by
  obtain ⟨p, hp, hx⟩ := (mem_found_mergeChunks _ _).mp h
  obtain ⟨ch, hch, hsome⟩ := List.mem_map.mp hp
  refine ⟨ch, hch, ?_⟩
  unfold rcChunk at hsome
  by_cases hf : st.chunkFails (ch.map Key.key) = true
  · rw [if_pos hf] at hsome; exact absurd hsome (by simp)
  · rw [if_neg hf] at hsome
    obtain rfl : classifyPairs ver (ch.map fun k' => (k', st.lookup k'.key)) = p :=
      Option.some.inj hsome
    obtain ⟨hmem, hver⟩ := (mem_found_classifyPairs _ _ _ _).mp hx
    obtain ⟨hc, hk⟩ := mem_selfPairs st ch k (Cell.val e) hmem
    exact ⟨Bool.eq_false_iff.mpr hf ▸ rfl, hk, hc.symm, hver⟩

/-- A missing key of the current redis `MGet` comes from a chunk whose
batch call succeeded, holds the key, and whose slot was nil or failed to
decode. -/
theorem rc_missing_char (r : RedisCache) (st : RedisStore) (keys : List Key) (ver : Nat)
    (k : Key) (h : k ∈ (rcMGet r st keys ver).1.2) :
    ∃ ch ∈ chunkBy r.chunkSize keys,
      st.chunkFails (ch.map Key.key) = false ∧ k ∈ ch ∧
        (st.lookup k.key = Cell.absent ∨ st.lookup k.key = Cell.corrupt) := by
  obtain ⟨p, hp, hx⟩ := (mem_missing_mergeChunks _ _).mp h
  obtain ⟨ch, hch, hsome⟩ := List.mem_map.mp hp
  refine ⟨ch, hch, ?_⟩
  unfold rcChunk at hsome
  by_cases hf : st.chunkFails (ch.map Key.key) = true
  · rw [if_pos hf] at hsome; exact absurd hsome (by simp)
  · rw [if_neg hf] at hsome
    obtain rfl : classifyPairs ver (ch.map fun k' => (k', st.lookup k'.key)) = p :=
      Option.some.inj hsome
    rcases (mem_missing_classifyPairs _ _ _).mp hx with hm | hm
    · obtain ⟨hc, hk⟩ := mem_selfPairs st ch k Cell.absent hm
      exact ⟨Bool.eq_false_iff.mpr hf ▸ rfl, hk, Or.inl hc.symm⟩
    · obtain ⟨hc, hk⟩ := mem_selfPairs st ch k Cell.corrupt hm
      exact ⟨Bool.eq_false_iff.mpr hf ▸ rfl, hk, Or.inr hc.symm⟩

/-! ### General lemmas about the orchestrator loops -/

theorem getPhase1_events (ver : Nat) (key : Key) :
    ∀ (ts : List Tier) (i : Nat), ∀ e ∈ (getPhase1 ver key i ts).2.2,
      ∃ j, e = Event.getCall j key.key := by
  intro ts
  induction ts with
  | nil => intro i e he; simp [getPhase1] at he
  | cons t rest ih =>
    intro i e he
    match hr : t.getR key ver with
    | .error u =>
      rw [getPhase1, hr] at he
      rcases List.mem_cons.mp he with rfl | hm
      · exact ⟨i, rfl⟩
      · exact ih (i + 1) e hm
    | .ok none =>
      rw [getPhase1, hr] at he
      rcases List.mem_cons.mp he with rfl | hm
      · exact ⟨i, rfl⟩
      · exact ih (i + 1) e hm
    | .ok (some v) =>
      rw [getPhase1, hr] at he
      rcases List.mem_cons.mp he with rfl | hm
      · exact ⟨i, rfl⟩
      · simp at hm

/-- When every tier reports the key absent, the loop records every tier as
missing, in order, finds no value, and queries every tier once. -/
theorem getPhase1_absent (ver : Nat) (key : Key) :
    ∀ (ts : List Tier) (i : Nat), (∀ t ∈ ts, t.getR key ver = .ok none) →
      getPhase1 ver key i ts =
        (ts.enumFrom i, none, (ts.enumFrom i).map fun p => Event.getCall p.1 key.key) := by
  intro ts
  induction ts with
  | nil => intro i _; rfl
  | cons t rest ih =>
    intro i h
    rw [getPhase1, h t (List.mem_cons_self _ _),
      ih (i + 1) fun u hu => h u (List.mem_cons_of_mem _ hu)]
    simp [List.enumFrom_cons]

/-- The tier loop's outcome (found value) depends only on the tiers' read
behavior, not on their write behavior. -/
theorem getPhase1_sameReads (ver : Nat) (key : Key) :
    ∀ {ts us : List Tier},
      List.Forall₂ (fun t u => t.getR = u.getR ∧ t.mgetR = u.mgetR) ts us →
      ∀ i, (getPhase1 ver key i ts).2.1 = (getPhase1 ver key i us).2.1 := by
  intro ts us h
  induction h with
  | nil => intro i; rfl
  | cons hrel _ ih =>
    intro i
    rw [getPhase1, getPhase1, ← hrel.1]
    match hr : Tier.getR _ key ver with
    | .error u => simpa using ih (i + 1)
    | .ok none => simpa using ih (i + 1)
    | .ok (some v) => rfl

theorem mgetPhase1_events (ver : Nat) :
    ∀ (ts : List Tier) (i : Nat) (q : List Key) (acc : List (Key × Option Ent)),
      ∀ e ∈ (mgetPhase1 ver i ts q acc).2.2.2, ∃ j ks, e = Event.mgetCall j ks := by
  intro ts
  induction ts with
  | nil => intro i q acc e he; simp [mgetPhase1] at he
  | cons t rest ih =>
    intro i q acc e he
    match hr : t.mgetR q ver with
    | .error u =>
      rw [mgetPhase1, hr] at he
      rcases List.mem_cons.mp he with rfl | hm
      · exact ⟨i, _, rfl⟩
      · exact ih (i + 1) q acc e hm
    | .ok (found, missing) =>
      rw [mgetPhase1, hr] at he
      dsimp only at he
      by_cases hm : missing.isEmpty
      · rw [if_pos hm] at he
        rcases List.mem_cons.mp he with rfl | hc
        · exact ⟨i, _, rfl⟩
        · simp at hc
      · rw [if_neg hm] at he
        rcases List.mem_cons.mp he with rfl | hc
        · exact ⟨i, _, rfl⟩
        · exact ih (i + 1) missing _ e hc

/-- `Cache.MSet`'s loop: every tier is attempted once, in order, with the
given records and TTL in the caller's scope, and the aggregated error
lists exactly the tiers whose write failed, in order. -/
theorem msetLoop_spec (ttl : Nat) (records : List (String × Option Ent)) :
    ∀ (ts : List Tier) (i : Nat),
      msetLoop ttl records i ts =
        (((ts.enumFrom i).filter fun p => ! p.2.msetOk records ttl).map Prod.fst,
          (ts.enumFrom i).map fun p => Event.msetCall p.1 records ttl Ctx.caller) := by
  intro ts
  induction ts with
  | nil => intro i; rfl
  | cons t rest ih =>
    intro i
    rw [msetLoop, ih (i + 1)]
    by_cases h : t.msetOk records ttl <;>
      simp [List.enumFrom_cons, List.filter_cons, h]

theorem msetLoop_errs_nil (ttl : Nat) (records : List (String × Option Ent)) :
    ∀ (ts : List Tier) (i : Nat),
      (msetLoop ttl records i ts).1 = [] ↔
        ∀ t ∈ ts, t.msetOk records ttl = true := by
  intro ts
  induction ts with
  | nil => intro i; simp [msetLoop]
  | cons t rest ih =>
    intro i
    rw [msetLoop]
    by_cases h : t.msetOk records ttl <;> simp [h, ih (i + 1)]

/-! ### General lemmas about the map helpers and the backfill subset -/

theorem mem_setS (s : String) (v : Option Ent) :
    ∀ (l : List (String × Option Ent)) (x : String × Option Ent),
      x ∈ setS s v l → x = (s, v) ∨ x ∈ l := by
  intro l
  induction l with
  | nil => intro x hx; simpa [setS] using hx
  | cons p rest ih =>
    intro x hx
    rw [setS] at hx
    by_cases h : p.1 = s
    · rw [if_pos h] at hx
      rcases List.mem_cons.mp hx with rfl | hm
      · exact Or.inl rfl
      · exact Or.inr (List.mem_cons_of_mem _ hm)
    · rw [if_neg h] at hx
      rcases List.mem_cons.mp hx with rfl | hm
      · exact Or.inr (List.mem_cons_self _ _)
      · rcases ih x hm with h1 | h1
        · exact Or.inl h1
        · exact Or.inr (List.mem_cons_of_mem _ h1)

/-- Every entry of a backfill `toSet` map records, under its cache-key
string, a value the origin's result map holds for one of the tier's
missed keys. -/
theorem computeToSet_mem (nv : List (Key × Option Ent)) (mk : List Key)
    (s : String) (v : Option Ent) (h : (s, v) ∈ computeToSet nv mk) :
    ∃ k ∈ mk, k.key = s ∧ lookupKV nv k = some v := by
  suffices haux : ∀ (l : List Key) (acc : List (String × Option Ent))
      (x : String × Option Ent),
      x ∈ l.foldl (fun acc k =>
        match lookupKV nv k with
        | some w => setS k.key w acc
        | none => acc) acc →
      x ∈ acc ∨ ∃ k ∈ l, k.key = x.1 ∧ lookupKV nv k = some x.2 by
    rcases haux mk [] (s, v) h with hx | hx
    · simp at hx
    · exact hx
  intro l
  induction l with
  | nil => intro acc x hx; exact Or.inl hx
  | cons k rest ih =>
    intro acc x hx
    rw [List.foldl_cons] at hx
    match hl : lookupKV nv k with
    | some w =>
      rw [hl] at hx
      rcases ih _ x hx with hm | hm
      · rcases mem_setS k.key w acc x hm with rfl | hm2
        · exact Or.inr ⟨k, List.mem_cons_self _ _, rfl, hl⟩
        · exact Or.inl hm2
      · obtain ⟨k2, hk2, h1, h2⟩ := hm
        exact Or.inr ⟨k2, List.mem_cons_of_mem _ hk2, h1, h2⟩
    | none =>
      rw [hl] at hx
      rcases ih _ x hx with hm | hm
      · exact Or.inl hm
      · obtain ⟨k2, hk2, h1, h2⟩ := hm
        exact Or.inr ⟨k2, List.mem_cons_of_mem _ hk2, h1, h2⟩

/-- A key outside a covering set of the origin map's keys is absent from
the origin map. -/
theorem lookupKV_none_of (nv : List (Key × Option Ent)) (L : List Key) (k : Key)
    (hcov : ∀ q ∈ nv, q.1 ∈ L) (hk : k ∉ L) : lookupKV nv k = none := by
  unfold lookupKV
  match hf : nv.find? fun p => p.1 = k with
  | none => rw [hf]; rfl
  | some p =>
    have hp := List.find?_some hf
    have hm := List.mem_of_find?_eq_some hf
    have : p.1 = k := of_decide_eq_true hp
    exact absurd (this ▸ hcov p hm) hk

theorem backgroundWrites_append (a c : List Event) :
    backgroundWrites (a ++ c) = backgroundWrites a ++ backgroundWrites c := by
  unfold backgroundWrites
  exact List.filter_append a c

theorem backgroundWrites_phase1_get (ver : Nat) (key : Key) (ts : List Tier) (i : Nat) :
    backgroundWrites (getPhase1 ver key i ts).2.2 = [] := by
  rw [backgroundWrites, List.filter_eq_nil_iff]
  intro e he
  obtain ⟨j, rfl⟩ := getPhase1_events ver key ts i e he
  simp

theorem backgroundWrites_phase1_mget (ver : Nat) (ts : List Tier) (i : Nat)
    (q : List Key) (acc : List (Key × Option Ent)) :
    backgroundWrites (mgetPhase1 ver i ts q acc).2.2.2 = [] := by
  rw [backgroundWrites, List.filter_eq_nil_iff]
  intro e he
  obtain ⟨j, ks, rfl⟩ := mgetPhase1_events ver ts i q acc e he
  simp

theorem backgroundWrites_origin (ks : List String) :
    backgroundWrites [Event.originCall ks] = [] := rfl

theorem backgroundWrites_backfill (missingIn : List (Nat × Tier × List Key))
    (nv : List (Key × Option Ent)) (ttl : Nat) :
    backgroundWrites (missingIn.map fun p =>
        Event.msetCall p.1 (computeToSet nv p.2.2) ttl Ctx.background) =
      missingIn.map fun p =>
        Event.msetCall p.1 (computeToSet nv p.2.2) ttl Ctx.background := by
  rw [backgroundWrites, List.filter_eq_self]
  intro e he
  obtain ⟨p, _, rfl⟩ := List.mem_map.mp he
  rfl

/-! ### Claim theorems -/

/-- C2: when the batch origin function is invoked and fails, the whole
MGet call fails with the wrapped source error and returns no result map —
no partial tier-resolved values — even when keys were already resolved
from tiers. -/
theorem c2_origin_error_total (b : Builder) (keys : List Key)
    (f : List Key → Except Unit (List (Key × Option Ent)))
    (htq : ¬ (mgetToQuery b keys).isEmpty)
    (herr : f (mgetToQuery b keys) = .error ()) :
    (cacheMGet b keys (some f)).1 = .error CacheErr.sourceFailed := by
  rw [mgetToQuery] at htq herr
  unfold cacheMGet
  dsimp only
  rw [if_neg htq, herr]

/-- Witness for C2: two keys, the first tier resolves `k1`, every tier
misses `k2`, and the origin fails: the call returns the source error. -/
theorem c2_origin_error_total_witness :
    (¬ (mgetToQuery fixB3 [fixKey, fixKey2]).isEmpty) ∧
      (cacheMGet fixB3 [fixKey, fixKey2] (some fixOriginErr)).1 =
        .error CacheErr.sourceFailed :=
  ⟨by decide, c2_origin_error_total fixB3 [fixKey, fixKey2] fixOriginErr (by decide) rfl⟩

/-- C5: when the first configured tier resolves the request — the single
key with a value, or every batch key with an empty missing list — the
whole call issues exactly one tier operation (against tier 0) and never
invokes a later tier or the origin function. -/
theorem c5_first_tier_short_circuit (b : Builder) (t : Tier) (rest : List Tier)
    (key : Key) (keys : List Key) (v : Ent) (found : List (Key × Option Ent))
    (fn : Option (Key → Except Unit (Option Ent)))
    (fn2 : Option (List Key → Except Unit (List (Key × Option Ent))))
    (htiers : b.tiers = t :: rest)
    (hget : t.getR key b.modelVersion = .ok (some v))
    (hmget : t.mgetR keys b.modelVersion = .ok (found, [])) :
    cacheGet b key fn = (.ok (some v), [Event.getCall 0 key.key]) ∧
    cacheMGet b keys fn2 =
      (.ok (mergeKV [] found), [Event.mgetCall 0 (keys.map Key.key)]) := by
  constructor
  · unfold cacheGet
    rw [htiers, getPhase1, hget]
    rfl
  · unfold cacheMGet
    rw [htiers, mgetPhase1, hmget]
    rfl

/-- Witness for C5: a hit tier in front of an absent tier; only tier 0 is
queried on both paths. -/
theorem c5_first_tier_short_circuit_witness :
    cacheGet fixB2 fixKey none = (.ok (some fixEnt), [Event.getCall 0 fixKey.key]) ∧
    cacheMGet fixB2 [fixKey, fixKey2] none =
      (.ok (mergeKV [] ([fixKey, fixKey2].map fun k => (k, some fixEnt))),
        [Event.mgetCall 0 ([fixKey, fixKey2].map Key.key)]) :=
  c5_first_tier_short_circuit fixB2 fixTierHit [fixTierAbsent] fixKey [fixKey, fixKey2]
    fixEnt ([fixKey, fixKey2].map fun k => (k, some fixEnt)) none none rfl rfl rfl

/-- C8: the orchestrator's MSet attempts every configured tier once, in
order, with the given records and the default TTL; a tier's failure does
not stop the remaining tiers; the returned error is nil exactly when all
tiers succeeded and otherwise aggregates exactly the failing tiers; with
an empty tier list the call is a no-op returning nil. -/
theorem c8_mset_all_tiers (b : Builder) (records : List (String × Option Ent)) :
    (cacheMSet b records).2 =
      ((b.tiers.enumFrom 0).map fun p => Event.msetCall p.1 records b.ttl Ctx.caller) ∧
    ((cacheMSet b records).1 = none ↔ ∀ t ∈ b.tiers, t.msetOk records b.ttl = true) ∧
    (cacheMSet b records).1.getD [] =
      (((b.tiers.enumFrom 0).filter fun p => ! p.2.msetOk records b.ttl).map Prod.fst) ∧
    (b.tiers = [] → cacheMSet b records = (none, [])) := by
  refine ⟨?_, ?_, ?_, ?_⟩
  · show (msetLoop b.ttl records 0 b.tiers).2 = _
    rw [msetLoop_spec]
  · show (if (msetLoop b.ttl records 0 b.tiers).1.isEmpty then none
        else some (msetLoop b.ttl records 0 b.tiers).1) = none ↔ _
    rw [← msetLoop_errs_nil b.ttl records b.tiers 0]
    by_cases h : (msetLoop b.ttl records 0 b.tiers).1.isEmpty
    · simp [h, List.isEmpty_iff.mp h]
    · simp [h]
      intro hnil
      exact h (by simp [hnil])
  · show (if (msetLoop b.ttl records 0 b.tiers).1.isEmpty then none
        else some (msetLoop b.ttl records 0 b.tiers).1).getD [] = _
    have h4 : (msetLoop b.ttl records 0 b.tiers).1 =
        ((b.tiers.enumFrom 0).filter fun p => ! p.2.msetOk records b.ttl).map Prod.fst :=
      congrArg Prod.fst (msetLoop_spec b.ttl records b.tiers 0)
    by_cases h : (msetLoop b.ttl records 0 b.tiers).1.isEmpty
    · rw [if_pos h, ← h4, List.isEmpty_iff.mp h]
      rfl
    · rw [if_neg h]
      exact h4
  · intro h
    unfold cacheMSet
    rw [h]
    rfl

/-- Witness for C8: one succeeding and one failing write tier — both are
attempted, the aggregated error names exactly the failing tier; and an
empty configuration is a nil no-op. -/
theorem c8_mset_all_tiers_witness :
    ((cacheMSet fixB4 [("k1", some fixEnt)]).1 = none ↔
      ∀ t ∈ fixB4.tiers, t.msetOk [("k1", some fixEnt)] fixB4.ttl = true) ∧
    (Builder.tiers ⟨[], 300, 1⟩ = [] →
      cacheMSet ⟨[], 300, 1⟩ [("k1", some fixEnt)] = (none, [])) :=
  ⟨(c8_mset_all_tiers fixB4 [("k1", some fixEnt)]).2.1,
    (c8_mset_all_tiers ⟨[], 300, 1⟩ [("k1", some fixEnt)]).2.2.2⟩

/-- C10: when every tier reports the key absent and the origin returns an
explicit nil value with nil error, Get returns nil value and nil error
and still performs the synchronous write-back: every tier receives an
MSet of the one-entry map binding the cache-key to the nil value. -/
theorem c10_nil_origin_writeback (b : Builder) (key : Key)
    (f : Key → Except Unit (Option Ent))
    (habs : ∀ t ∈ b.tiers, t.getR key b.modelVersion = .ok none)
    (hf : f key = .ok none) :
    (cacheGet b key (some f)).1 = .ok none ∧
    (cacheGet b key (some f)).2 =
      ((b.tiers.enumFrom 0).map fun p => Event.getCall p.1 key.key)
        ++ [Event.originCall [key.key]]
        ++ ((b.tiers.enumFrom 0).map fun p =>
              Event.msetCall p.1 [(key.key, none)] b.ttl Ctx.caller) := by
  unfold cacheGet
  rw [getPhase1_absent b.modelVersion key b.tiers 0 habs]
  dsimp only
  rw [hf]
  exact ⟨rfl, rfl⟩

/-- Witness for C10: one absent tier, nil-returning origin: the result is
nil with no error and the tier receives the nil write-back. -/
theorem c10_nil_origin_writeback_witness :
    (cacheGet fixB1 fixKey (some fixOriginNil)).1 = .ok none ∧
    (cacheGet fixB1 fixKey (some fixOriginNil)).2 =
      ((fixB1.tiers.enumFrom 0).map fun p => Event.getCall p.1 fixKey.key)
        ++ [Event.originCall [fixKey.key]]
        ++ ((fixB1.tiers.enumFrom 0).map fun p =>
              Event.msetCall p.1 [(fixKey.key, none)] fixB1.ttl Ctx.caller) :=
  c10_nil_origin_writeback fixB1 fixKey fixOriginNil
    (by intro t ht; rcases List.mem_singleton.mp ht with rfl; rfl) rfl

/-- C1 counterexample: one configured tier that reports the key absent,
origin function nil.  The call does return the configuration error, but
the tier's Get *was* invoked during the call — contradicting "without
touching any tier: no tier's Get, MGet, or MSet is invoked". -/
theorem c1_counterexample :
    (cacheGet fixB1 fixKey none).1 = .error CacheErr.sourceNotDefined ∧
    Event.getCall 0 "k1" ∈ (cacheGet fixB1 fixKey none).2 :=
  ⟨rfl, by decide⟩

/-- C1 (amended): when no tier resolves the request and the origin
function is nil, Get/MGet return the configuration error without any
tier write (MSet) and without an origin call — but the configured tiers'
read lookups (Get/MGet) that precede the check do still run. -/
theorem c1_amended_config_error (b : Builder) (key : Key) (keys : List Key) :
    ((getPhase1 b.modelVersion key 0 b.tiers).2.1 = none →
       (cacheGet b key none).1 = .error CacheErr.sourceNotDefined ∧
       ∀ e ∈ (cacheGet b key none).2, ∃ j, e = Event.getCall j key.key) ∧
    (¬ (mgetToQuery b keys).isEmpty →
       (cacheMGet b keys none).1 = .error CacheErr.sourceNotDefined) ∧
    (∀ e ∈ (cacheMGet b keys none).2, ∃ j ks, e = Event.mgetCall j ks) := by
  refine ⟨?_, ?_, ?_⟩
  · intro h
    unfold cacheGet
    dsimp only
    rw [h]
    exact ⟨rfl, getPhase1_events b.modelVersion key b.tiers 0⟩
  · intro h
    rw [mgetToQuery] at h
    unfold cacheMGet
    dsimp only
    rw [if_neg h]
  · intro e he
    unfold cacheMGet at he
    dsimp only at he
    by_cases h : (mgetPhase1 b.modelVersion 0 b.tiers keys []).2.2.1.isEmpty
    · rw [if_pos h] at he
      exact mgetPhase1_events b.modelVersion b.tiers 0 keys [] e he
    · rw [if_neg h] at he
      exact mgetPhase1_events b.modelVersion b.tiers 0 keys [] e he

/-- Witness for C1 (amended): a single absent tier; the call fails with
the configuration error and its trace holds only tier reads. -/
theorem c1_amended_config_error_witness :
    (cacheGet fixB1 fixKey none).1 = .error CacheErr.sourceNotDefined ∧
    (∀ e ∈ (cacheGet fixB1 fixKey none).2, ∃ j, e = Event.getCall j fixKey.key) :=
  (c1_amended_config_error fixB1 fixKey [fixKey]).1 rfl

/-- C4: whenever single-key Get succeeds with a value — resolved by a
winning tier or by the origin — every tier that recorded a miss receives
a synchronous MSet of the one-entry map binding the cache-key to that
value with the default TTL, and the returned value and nil error do not
depend on the tiers' write outcomes: any configuration with the same
read behavior returns the same result. -/
theorem c4_get_writeback (b : Builder) (key : Key)
    (fn : Option (Key → Except Unit (Option Ent))) (v : Option Ent)
    (h : (cacheGet b key fn).1 = .ok v) :
    (∀ p ∈ (getPhase1 b.modelVersion key 0 b.tiers).1,
       Event.msetCall p.1 [(key.key, v)] b.ttl Ctx.caller ∈ (cacheGet b key fn).2) ∧
    (∀ b', sameReads b b' → (cacheGet b' key fn).1 = .ok v) := by
  constructor
  · intro p hp
    unfold cacheGet at h ⊢
    dsimp only at h ⊢
    match hv : (getPhase1 b.modelVersion key 0 b.tiers).2.1 with
    | some w =>
      rw [hv] at h
      dsimp only at h ⊢
      obtain rfl : some w = v := Except.ok.inj h
      unfold writebackEvents
      exact List.mem_append_right _ (List.mem_map.mpr ⟨p, hp, rfl⟩)
    | none =>
      rw [hv] at h
      dsimp only at h ⊢
      match fn with
      | none => exact absurd h (by simp)
      | some f =>
        dsimp only at h ⊢
        match hf : f key with
        | .error u =>
          rw [hf] at h
          dsimp only at h
          exact absurd h (by simp)
        | .ok w =>
          rw [hf] at h
          dsimp only at h ⊢
          obtain rfl : w = v := Except.ok.inj h
          refine List.mem_append_right _ ?_
          unfold writebackEvents
          exact List.mem_map.mpr ⟨p, hp, rfl⟩
  · rintro b' ⟨hmv, hts⟩
    have hval : (getPhase1 b'.modelVersion key 0 b'.tiers).2.1 =
        (getPhase1 b.modelVersion key 0 b.tiers).2.1 := by
      rw [← hmv]
      exact (getPhase1_sameReads b.modelVersion key hts 0).symm
    unfold cacheGet at h ⊢
    dsimp only at h ⊢
    rw [hval]
    match hv : (getPhase1 b.modelVersion key 0 b.tiers).2.1 with
    | some w =>
      rw [hv] at h
      dsimp only at h ⊢
      exact h
    | none =>
      rw [hv] at h
      dsimp only at h ⊢
      match fn with
      | none => exact absurd h (by simp)
      | some f =>
        dsimp only at h ⊢
        match hf : f key with
        | .error u =>
          rw [hf] at h
          dsimp only at h
          exact absurd h (by simp)
        | .ok w =>
          rw [hf] at h
          dsimp only at h ⊢
          exact h

/-- Witness for C4: tier 0 misses, tier 1 wins; the missed tier receives
the synchronous write-back of the winning value. -/
theorem c4_get_writeback_witness :
    Event.msetCall 0 [(fixKey.key, some fixEnt)] fixB5.ttl Ctx.caller ∈
      (cacheGet fixB5 fixKey none).2 :=
  (c4_get_writeback fixB5 fixKey none (some fixEnt) rfl).1
    (0, fixTierAbsent) (List.mem_singleton.mpr rfl)

/-- C3: in batch MGet the backfill runs only when the origin function was
actually invoked and returned at least one value; it then issues one
background-scope MSet per tier that recorded a miss, writing exactly the
subset of that tier's missed keys present in the origin's result map,
with the default TTL; and provided the origin only answers keys it was
asked (as Go's pointer-keyed maps guarantee), a key missed at an early
tier but resolved at a later tier — hence absent from the origin query —
is never backfilled. -/
theorem c3_backfill (b : Builder) (keys : List Key)
    (f : List Key → Except Unit (List (Key × Option Ent))) :
    ((mgetToQuery b keys).isEmpty →
        backgroundWrites (cacheMGet b keys (some f)).2 = []) ∧
    backgroundWrites (cacheMGet b keys none).2 = [] ∧
    (f (mgetToQuery b keys) = .error () →
        backgroundWrites (cacheMGet b keys (some f)).2 = []) ∧
    (∀ newValues, ¬ (mgetToQuery b keys).isEmpty →
       f (mgetToQuery b keys) = .ok newValues →
       (backgroundWrites (cacheMGet b keys (some f)).2 =
          if ¬ (mgetMissingIn b keys).isEmpty ∧ ¬ newValues.isEmpty then
            (mgetMissingIn b keys).map fun p =>
              Event.msetCall p.1 (computeToSet newValues p.2.2) b.ttl Ctx.background
          else []) ∧
       (∀ p ∈ mgetMissingIn b keys, ∀ s v, (s, v) ∈ computeToSet newValues p.2.2 →
          ∃ k ∈ p.2.2, k.key = s ∧ lookupKV newValues k = some v) ∧
       ((∀ q ∈ newValues, q.1 ∈ mgetToQuery b keys) →
          ∀ p ∈ mgetMissingIn b keys, ∀ k ∈ p.2.2, k ∉ mgetToQuery b keys →
            lookupKV newValues k = none)) := by
  refine ⟨?_, ?_, ?_, ?_⟩
  · intro h
    rw [mgetToQuery] at h
    unfold cacheMGet
    dsimp only
    rw [if_pos h]
    exact backgroundWrites_phase1_mget b.modelVersion b.tiers 0 keys []
  · unfold cacheMGet
    dsimp only
    by_cases h : (mgetPhase1 b.modelVersion 0 b.tiers keys []).2.2.1.isEmpty
    · rw [if_pos h]
      exact backgroundWrites_phase1_mget b.modelVersion b.tiers 0 keys []
    · rw [if_neg h]
      exact backgroundWrites_phase1_mget b.modelVersion b.tiers 0 keys []
  · intro herr
    rw [mgetToQuery] at herr
    unfold cacheMGet
    dsimp only
    by_cases h : (mgetPhase1 b.modelVersion 0 b.tiers keys []).2.2.1.isEmpty
    · rw [if_pos h]
      exact backgroundWrites_phase1_mget b.modelVersion b.tiers 0 keys []
    · rw [if_neg h, herr]
      dsimp only
      rw [backgroundWrites_append,
        backgroundWrites_phase1_mget b.modelVersion b.tiers 0 keys [],
        backgroundWrites_origin]
      rfl
  · intro newValues htq hok
    refine ⟨?_, ?_, ?_⟩
    · rw [mgetToQuery] at htq hok
      rw [mgetMissingIn]
      unfold cacheMGet
      dsimp only
      rw [if_neg htq, hok]
      dsimp only
      by_cases hc : ¬ (mgetPhase1 b.modelVersion 0 b.tiers keys []).1.isEmpty ∧
          ¬ newValues.isEmpty
      · rw [if_pos hc, backgroundWrites_append, backgroundWrites_append,
          backgroundWrites_phase1_mget b.modelVersion b.tiers 0 keys [],
          backgroundWrites_origin, backgroundWrites_backfill]
        rfl
      · rw [if_neg hc, List.append_nil, backgroundWrites_append,
          backgroundWrites_phase1_mget b.modelVersion b.tiers 0 keys [],
          backgroundWrites_origin]
        rfl
    · intro p _ s v hmem
      exact computeToSet_mem newValues p.2.2 s v hmem
    · intro hcov p _ k _ hk
      exact lookupKV_none_of newValues (mgetToQuery b keys) k hcov hk

/-- Witness for C3: two tiers missing `k2`, origin answers it — the trace
holds exactly the background backfill writes of the computed subset, one
per missed tier. -/
theorem c3_backfill_witness :
    backgroundWrites (cacheMGet fixB3 [fixKey, fixKey2] (some fixOriginOk)).2 =
      if ¬ (mgetMissingIn fixB3 [fixKey, fixKey2]).isEmpty ∧
          ¬ ([(fixKey2, some fixEnt2)] : List (Key × Option Ent)).isEmpty then
        (mgetMissingIn fixB3 [fixKey, fixKey2]).map fun p =>
          Event.msetCall p.1 (computeToSet [(fixKey2, some fixEnt2)] p.2.2)
            fixB3.ttl Ctx.background
      else [] :=
  ((c3_backfill fixB3 [fixKey, fixKey2] fixOriginOk).2.2.2
    [(fixKey2, some fixEnt2)] (by decide) rfl).1

theorem chunkBy_len_250 (l : List α) (h : l.length = 250) :
    (chunkBy 100 l).length = 3 := by
  have h1 : (l.drop 100).length = 150 := by rw [List.length_drop, h]
  have h2 : ((l.drop 100).drop 100).length = 50 := by rw [List.length_drop, h1]
  rw [chunkBy_eq, if_pos (by omega : 100 < l.length ∧ 0 < 100)]
  rw [chunkBy_eq, if_pos (by omega : 100 < (l.drop 100).length ∧ 0 < 100)]
  rw [chunkBy_eq, if_neg (by omega : ¬ (100 < ((l.drop 100).drop 100).length ∧ 0 < 100))]
  rfl

/-- When no chunk's batch call fails and every key's slot decodes to a
version-matched entity, the merged found list enumerates the chunks'
keys exactly, in order, and nothing is missing. -/
theorem mergeChunks_all_val (st : RedisStore) (ver : Nat) :
    ∀ chunks : List (List Key),
      (∀ ch ∈ chunks, st.chunkFails (ch.map Key.key) = false) →
      (∀ ch ∈ chunks, ∀ k ∈ ch, ∃ e, st.lookup k.key = Cell.val e ∧ e.modelVersion = ver) →
      (mergeChunks (chunks.map (rcChunk st ver))).1.map Prod.fst = chunks.flatten ∧
        (mergeChunks (chunks.map (rcChunk st ver))).2 = [] := by
  intro chunks
  induction chunks with
  | nil => intro _ _; exact ⟨rfl, rfl⟩
  | cons ch rest ih =>
    intro hfail hval
    have hch : rcChunk st ver ch =
        some (classifyPairs ver (ch.map fun k => (k, st.lookup k.key))) := by
      unfold rcChunk
      rw [if_neg (by rw [hfail ch (List.mem_cons_self _ _)]; simp)]
    have hall : ∀ p ∈ ch.map fun k => (k, st.lookup k.key),
        ∃ e, p.2 = Cell.val e ∧ e.modelVersion = ver := by
      intro p hp
      obtain ⟨k, hk, rfl⟩ := List.mem_map.mp hp
      exact hval ch (List.mem_cons_self _ _) k hk
    obtain ⟨hfst, hmiss⟩ := classifyPairs_all_val ver _ hall
    have ihr := ih (fun c hc => hfail c (List.mem_cons_of_mem _ hc))
      (fun c hc => hval c (List.mem_cons_of_mem _ hc))
    rw [List.map_cons, hch, mergeChunks]
    constructor
    · rw [List.map_append, hfst, ihr.1, List.flatten_cons]
      congr 1
      rw [List.map_map]
      exact List.map_id ch
    · rw [hmiss, ihr.2]
      rfl

/-- C6: in the distributed-store tier's batch MGet, a stored value that
decodes but whose model version differs from the required one ends in
neither the found map nor the missing list; a chunk whose batch call
errors contributes none of its keys to either; and the call itself
always returns a nil error. -/
theorem c6_redis_mget_classification (r : RedisCache) (st : RedisStore)
    (keys : List Key) (ver : Nat) :
    (rcMGet r st keys ver).2 = none ∧
    (∀ k ∈ keys, ∀ e : Ent, st.lookup k.key = Cell.val e → e.modelVersion ≠ ver →
       (∀ e', (k, e') ∉ (rcMGet r st keys ver).1.1) ∧ k ∉ (rcMGet r st keys ver).1.2) ∧
    (keys.Nodup →
       ∀ ch ∈ chunkBy r.chunkSize keys, st.chunkFails (ch.map Key.key) = true →
       ∀ k ∈ ch,
         (∀ e', (k, e') ∉ (rcMGet r st keys ver).1.1) ∧ k ∉ (rcMGet r st keys ver).1.2) := by
  refine ⟨rfl, ?_, ?_⟩
  · intro k _ e hval hne
    constructor
    · intro e' hmem
      obtain ⟨ch, _, _, _, hl, hv⟩ := rc_found_char r st keys ver k e' hmem
      rw [hval] at hl
      exact hne (Cell.val.inj hl ▸ hv)
    · intro hmem
      obtain ⟨ch, _, _, _, hl⟩ := rc_missing_char r st keys ver k hmem
      rcases hl with hl | hl <;> rw [hval] at hl <;> exact Cell.noConfusion hl
  · intro hnd ch hch hfail k hk
    have hdisj : List.Pairwise List.Disjoint (chunkBy r.chunkSize keys) := by
      have : (chunkBy r.chunkSize keys).flatten.Nodup := by
        rw [chunkBy_flatten]; exact hnd
      exact (List.nodup_flatten.mp this).2
    have hne : ∀ ch' ∈ chunkBy r.chunkSize keys,
        st.chunkFails (ch'.map Key.key) = false → k ∉ ch' := by
      intro ch' hch' hfail' hk'
      have hchne : ch ≠ ch' := by
        intro heq
        rw [heq, hfail'] at hfail
        exact Bool.false_ne_true hfail
      exact (List.Pairwise.forall (fun _ _ h => h.symm) hdisj hch hch' hchne) hk hk'
    constructor
    · intro e' hmem
      obtain ⟨ch', hch', hfail', hk', _⟩ := rc_found_char r st keys ver k e' hmem
      exact hne ch' hch' hfail' hk'
    · intro hmem
      obtain ⟨ch', hch', hfail', hk', _⟩ := rc_missing_char r st keys ver k hmem
      exact hne ch' hch' hfail' hk'

/-- Witness for C6: two keys, the first stored with a mismatched model
version, the second chunk-failed: with chunk size 1 and nodup keys, the
mismatched key is in neither output, and the error is nil. -/
theorem c6_redis_mget_classification_witness :
    (rcMGet ⟨1⟩ ⟨fun s => if s == "k1" then Cell.val ⟨2, 0⟩ else Cell.absent,
        fun ss => ss == ["k2"]⟩ [fixKey, fixKey2] 1).2 = none ∧
    ((∀ e', (fixKey, e') ∉ (rcMGet ⟨1⟩ ⟨fun s => if s == "k1" then Cell.val ⟨2, 0⟩ else Cell.absent,
        fun ss => ss == ["k2"]⟩ [fixKey, fixKey2] 1).1.1) ∧
      fixKey ∉ (rcMGet ⟨1⟩ ⟨fun s => if s == "k1" then Cell.val ⟨2, 0⟩ else Cell.absent,
        fun ss => ss == ["k2"]⟩ [fixKey, fixKey2] 1).1.2) ∧
    ((∀ e', (fixKey2, e') ∉ (rcMGet ⟨1⟩ ⟨fun s => if s == "k1" then Cell.val ⟨2, 0⟩ else Cell.absent,
        fun ss => ss == ["k2"]⟩ [fixKey, fixKey2] 1).1.1) ∧
      fixKey2 ∉ (rcMGet ⟨1⟩ ⟨fun s => if s == "k1" then Cell.val ⟨2, 0⟩ else Cell.absent,
        fun ss => ss == ["k2"]⟩ [fixKey, fixKey2] 1).1.2) :=
  ⟨(c6_redis_mget_classification ⟨1⟩ _ [fixKey, fixKey2] 1).1,
    (c6_redis_mget_classification ⟨1⟩ _ [fixKey, fixKey2] 1).2.1 fixKey (by decide)
      ⟨2, 0⟩ rfl (by decide),
    (c6_redis_mget_classification ⟨1⟩ _ [fixKey, fixKey2] 1).2.2 (by decide)
      [fixKey2] (by decide) rfl fixKey2 (by decide)⟩

/-- C7: the distributed-store MGet splits the input key list in order
into chunks that concatenate back to the input, with every non-final
chunk exactly full; 250 keys at chunk size 100 yield exactly 3 batch
calls; and when every key is present and version-matched the merged
result lists each input key exactly once, with nothing missing. -/
theorem c7_chunking (cs : Nat) (st : RedisStore) (keys : List Key) (ver : Nat) :
    (chunkBy cs keys).flatten = keys ∧
    (∀ i, i + 1 < (chunkBy cs keys).length → ((chunkBy cs keys).getD i []).length = cs) ∧
    (keys.length = 250 → (chunkBy 100 keys).length = 3) ∧
    ((∀ ch ∈ chunkBy cs keys, st.chunkFails (ch.map Key.key) = false) →
     (∀ k ∈ keys, ∃ e, st.lookup k.key = Cell.val e ∧ e.modelVersion = ver) →
       (rcMGet ⟨cs⟩ st keys ver).1.1.map Prod.fst = keys ∧
         (rcMGet ⟨cs⟩ st keys ver).1.2 = []) := by
  refine ⟨chunkBy_flatten cs keys, chunkBy_full cs keys, chunkBy_len_250 keys, ?_⟩
  intro hfail hval
  have hval2 : ∀ ch ∈ chunkBy cs keys, ∀ k ∈ ch,
      ∃ e, st.lookup k.key = Cell.val e ∧ e.modelVersion = ver := by
    intro ch hch k hk
    refine hval k ?_
    rw [← chunkBy_flatten cs keys]
    exact List.mem_flatten.mpr ⟨ch, hch, hk⟩
  obtain ⟨h1, h2⟩ := mergeChunks_all_val st ver (chunkBy cs keys) hfail hval2
  exact ⟨h1.trans (chunkBy_flatten cs keys), h2⟩

/-- Witness for C7: 250 distinct keys, everything stored version-matched,
chunk size 100: 3 chunks, found covers the keys exactly, missing empty. -/
theorem c7_chunking_witness :
    (chunkBy 100 fixKeys250).length = 3 ∧
    (rcMGet ⟨100⟩ fixStoreAll fixKeys250 1).1.1.map Prod.fst = fixKeys250 ∧
    (rcMGet ⟨100⟩ fixStoreAll fixKeys250 1).1.2 = [] := by
  have h := c7_chunking 100 fixStoreAll fixKeys250 1
  refine ⟨h.2.2.1 (by rw [fixKeys250, List.length_map, List.length_range]), ?_, ?_⟩
  · exact (h.2.2.2 (fun ch _ => rfl) (fun k _ => ⟨⟨1, k.key.length⟩, rfl, rfl⟩)).1
  · exact (h.2.2.2 (fun ch _ => rfl) (fun k _ => ⟨⟨1, k.key.length⟩, rfl, rfl⟩)).2

theorem zip_selfPairs (st : RedisStore) :
    ∀ ks : List Key,
      ks.zip ((ks.map Key.key).map st.lookup) = ks.map fun k => (k, st.lookup k.key) := by
  intro ks
  induction ks with
  | nil => rfl
  | cons k rest ih =>
    rw [List.map_cons, List.map_cons, List.zip_cons_cons, ih, List.map_cons]

/-- C9 counterexample: 101 pairwise distinct keys, default chunk size
100, an empty store with no transport failures.  The current
implementation reports the 101st key (100 letters `a`) missing; the
older implementation instead mis-indexes the full key list inside the
second chunk and never reports that cache-key missing, so the two
missing sets differ. -/
theorem c9_counterexample :
    String.mk (List.replicate 100 'a') ∈
        (rcMGet RedisCache.new fixStoreNone fixKeys101 1).1.2.map Key.key ∧
      String.mk (List.replicate 100 'a') ∉
        (dcMGet RedisCache.new fixStoreNone fixKeys101 1).1.2.map Key.key := by
  constructor
  · decide
  · decide

/-- C9 (amended): the two distributed-store MGet implementations agree —
same found map and same missing list — whenever the input key list fits
in a single chunk (at most `chunkSize`, i.e. 100, keys); beyond one
chunk the older implementation indexes the full key list with chunk-local
indices and classifies the wrong keys. -/
theorem c9_amended_single_chunk (r : RedisCache) (st : RedisStore)
    (keys : List Key) (ver : Nat) (h : keys.length ≤ r.chunkSize) :
    rcMGet r st keys ver = dcMGet r st keys ver := by
  unfold rcMGet dcMGet rcChunk dcChunk
  rw [chunkBy_of_le r.chunkSize keys h,
    chunkBy_of_le r.chunkSize (keys.map Key.key) (by rw [List.length_map]; exact h),
    List.map_singleton, List.map_singleton]
  rw [zip_selfPairs]

/-- Witness for C9 (amended): two keys fit in one default-size chunk and
both implementations agree exactly. -/
theorem c9_amended_single_chunk_witness :
    rcMGet RedisCache.new fixStoreAll [fixKey, fixKey2] 1 =
      dcMGet RedisCache.new fixStoreAll [fixKey, fixKey2] 1 :=
  c9_amended_single_chunk RedisCache.new fixStoreAll [fixKey, fixKey2] 1 (by decide)

end DatasourceCache
